import Mathlib

/-!
Verification of the tripy deferred-execution tensor graph layer
(frontend/trace/ops/reduce.py, frontend/tensor.py, frontend/ops/repeat.py),
via a shallow embedding of its rank/dtype inference, reduction lowering
parameters, evaluation cache, and boolean conversion.
-/

/-! ## Data types (tripy.common.datatype) -/

/-- The element datatypes named by the frontend (`tripy.common.datatype`). -/
inductive DataType where
  | float32 | float16 | bfloat16 | float8
  | int4 | int8 | int32 | int64
  | bool
deriving DecidableEq

/-! ## Reduce (frontend/trace/ops/reduce.py) -/

/-- A Python value as it appears in `Reduce.Kind`'s `init_value` payload:
the literals `0`, `1`, `True`, `False` in the source, plus a distinguished
negative-infinity sentinel used only to state the spec's claimed table. -/
inductive InitVal where
  | int (n : Int)
  | bool (b : Bool)
  | negInf
deriving DecidableEq

/-- `Reduce.Kind`: the closed enumeration of reduction kinds. -/
inductive ReduceKind where
  | SUM | MAX | MUL | AND | OR
deriving DecidableEq

/-- The `op` payload of each `Reduce.Kind` member (`"sum", "max", "mul", "and", "or"`). -/
def ReduceKind.op : ReduceKind → String
  | .SUM => "sum"
  | .MAX => "max"
  | .MUL => "mul"
  | .AND => "and"
  | .OR => "or"

/-- The `init_value` payload of each `Reduce.Kind` member, exactly as written in
the source (`SUM = "sum", 0; MAX = "max", 0; MUL = "mul", 1; AND = "and", True;
OR = "or", False`). -/
def ReduceKind.init_value : ReduceKind → InitVal
  | .SUM => .int 0
  | .MAX => .int 0
  | .MUL => .int 1
  | .AND => .bool true
  | .OR => .bool false

/-- In `Reduce.to_flat_ir`, the constant that seeds the lowered `ReduceOp` is
built from `self.kind.init_value` (the `data=Array(init_value, ...)` argument
of `ConstantOp.build`). -/
def reduceLoweringSeed (k : ReduceKind) : InitVal := k.init_value

/-- The identity-element table as the specification's words state it
("0, -∞ sentinel/first-element, 1, true, false respectively"), written
separately so it can be compared against the table embedded from the source. -/
def specClaimedInitValue : ReduceKind → InitVal
  | .SUM => .int 0
  | .MAX => .negInf
  | .MUL => .int 1
  | .AND => .bool true
  | .OR => .bool false

/-- The symbolic metadata of a `Reduce` operation that `infer_rank` consumes:
the input node's rank and the `dim` parameter (`None` or a list of axes). -/
structure ReduceInfo where
  inputRank : Nat
  dim : Option (List Int)
deriving DecidableEq

/-- Normalization of one axis index as written in `Reduce.infer_rank`:
`idx if idx >= 0 else idx + self.inputs[0].rank`. -/
def normalizeIdx (inputRank : Nat) (idx : Int) : Int :=
  if 0 ≤ idx then idx else idx + inputRank

/-- `Reduce.infer_rank`, embedded from the source: returns the rewritten `dim`
list and the output rank it assigns.  If `dim` is `None`, `dim` becomes
`list(range(input.rank))` and the output rank is `0`; otherwise each negative
index is shifted by `input.rank` and the output rank is
`input.rank - len(dim)` (Python integer arithmetic, hence `Int`). -/
def infer_rank (s : ReduceInfo) : List Int × Int :=
  match s.dim with
  | none => ((List.range s.inputRank).map Int.ofNat, 0)
  | some d => (d.map (normalizeIdx s.inputRank), (s.inputRank : Int) - d.length)

/-- `ArgMinMax.infer_dtypes`, embedded from the source: the output dtype is
assigned `datatype.int32` unconditionally. -/
def argMinMaxInferDtype (_inputDtype : DataType) : DataType := DataType.int32

/-! ## Theorems for rank/dtype inference claims -/

/-- C1: `Reduce.infer_rank` reduces all axes with output rank 0 when `dim` is
unset, and otherwise rewrites each negative axis index `d` to `d + input.rank`
and sets the output rank to `input.rank - len(dim)`. -/
theorem reduce_infer_rank_spec (r : Nat) (d : List Int) :
    infer_rank ⟨r, none⟩ = ((List.range r).map Int.ofNat, 0) ∧
    infer_rank ⟨r, some d⟩ =
      (d.map (fun i : Int => if i < 0 then i + r else i), (r : Int) - d.length) := by
  refine ⟨rfl, ?_⟩
  have h : (fun i : Int => if i < 0 then i + (r : Int) else i) = normalizeIdx r := by
    funext i
    simp only [normalizeIdx]
    by_cases h : (0 : Int) ≤ i
    · rw [if_pos h, if_neg (by omega)]
    · rw [if_neg h, if_pos (by omega)]
  simp only [infer_rank, h]

/-- C3: at input rank 2 with the duplicate axis list `dim = [0, 0]`,
`Reduce.infer_rank` raises nothing and silently assigns output rank
`2 - 2 = 0`; the function has no error path at all, contradicting the
specification's requirement of an eager `InvalidAxis` rejection. -/
theorem reduce_infer_rank_duplicate_axes :
    infer_rank ⟨2, some [0, 0]⟩ = ([0, 0], 0) := by decide

/-- C4 counterexample: in the source, the identity element carried by `MAX`
(and used by `to_flat_ir` to seed the lowered reduction) is the integer `0`,
not the -infinity sentinel the claim states. -/
theorem reduce_kind_max_identity_counterexample :
    reduceLoweringSeed ReduceKind.MAX = InitVal.int 0 ∧
    reduceLoweringSeed ReduceKind.MAX ≠ specClaimedInitValue ReduceKind.MAX := by
  decide

/-- C4 (amended): the reduction kinds form the closed enumeration
{SUM, MAX, MUL, AND, OR}, and the identity elements seeding the lowered
reductions are 0 for SUM, 0 for MAX, 1 for MUL, true for AND, false for OR. -/
theorem reduce_kind_identity_table :
    reduceLoweringSeed ReduceKind.SUM = InitVal.int 0 ∧
    reduceLoweringSeed ReduceKind.MAX = InitVal.int 0 ∧
    reduceLoweringSeed ReduceKind.MUL = InitVal.int 1 ∧
    reduceLoweringSeed ReduceKind.AND = InitVal.bool true ∧
    reduceLoweringSeed ReduceKind.OR = InitVal.bool false := by
  decide

/-- C7: `ArgMinMax.infer_dtypes` assigns the 32-bit signed integer index type
to the output regardless of the input tensor's dtype. -/
theorem argminmax_dtype_int32 (d : DataType) :
    argMinMaxInferDtype d = DataType.int32 := rfl

/-! ## Evaluation cache (frontend/tensor.py, `Tensor.eval`) -/

/-- The producer of a trace tensor, as `Tensor.eval` distinguishes it:
either a `Storage` op whose `has_memref` holds (carrying the realized buffer),
or any other trace operation still awaiting compilation.  `β` is the type of
realized buffers (`runtime.MemRefValue`), kept abstract. -/
inductive Producer (β : Type) where
  | storageMemref (data : β)
  | traceOp
deriving DecidableEq

/-- The per-tensor state `Tensor.eval` reads and rewrites. -/
structure TensorState (β : Type) where
  producer : Producer β
deriving DecidableEq

/-- `Tensor.eval`, embedded from the source: if the producer is a `Storage`
with a realized memref, return its data immediately; otherwise invoke the
external compiler/executor (abstracted as the buffer `compileExec` it would
produce), rewrite the producer to a `Storage` holding that buffer, and return
it.  The third component counts invocations of the compiler/executor made by
this call. -/
def eval {β : Type} (compileExec : β) (s : TensorState β) :
    β × TensorState β × Nat :=
  match s.producer with
  | .storageMemref data => (data, s, 0)
  | .traceOp => (compileExec, ⟨.storageMemref compileExec⟩, 1)

/-- C2: starting from an unevaluated node, the first `eval` invokes the
compiler/executor once and rewrites the producer to a `Storage` holding the
realized buffer; the second `eval` returns that same buffer with zero further
compiler invocations, so the compiler runs exactly once across both calls. -/
theorem tensor_eval_caches (β : Type) (compileExec : β) (s : TensorState β)
    (h : s.producer = Producer.traceOp) :
    (eval compileExec s).2.1.producer =
        Producer.storageMemref (eval compileExec s).1 ∧
    (eval compileExec (eval compileExec s).2.1).1 = (eval compileExec s).1 ∧
    (eval compileExec s).2.2 +
        (eval compileExec (eval compileExec s).2.1).2.2 = 1 := by
  obtain ⟨p⟩ := s
  cases p with
  | storageMemref data => simp at h
  | traceOp => exact ⟨rfl, rfl, rfl⟩

/-- C2 witness at a concrete unevaluated node with `Nat` buffers. -/
theorem tensor_eval_caches_witness :
    (TensorState.mk (β := Nat) Producer.traceOp).producer = Producer.traceOp ∧
    (eval 42 (TensorState.mk (β := Nat) Producer.traceOp)).2.2 +
      (eval 42 (eval 42 (TensorState.mk (β := Nat) Producer.traceOp)).2.1).2.2 = 1 :=
  ⟨rfl, (tensor_eval_caches Nat 42 ⟨Producer.traceOp⟩ rfl).2.2⟩

/-! ## repeat (frontend/ops/repeat.py) -/

/-- The error raised by `raise_error` in `repeat` for a negative count
(the spec's `InvalidArgument` taxon). -/
inductive RepeatErr where
  | invalidArgument (msg : String)
deriving DecidableEq

/-- `repeat(input, repeats, dim)`, embedded from the source at the level of
graph construction: an integer `repeats < 0` hits `raise_error` before any
graph op is built; otherwise the body builds the `unsqueeze`, `expand` and
`reshape` nodes, returned here as the list of ops appended to the graph. -/
def repeatOp (_inputRank : Nat) (repeats : Int) (_dim : Nat) :
    Except RepeatErr (List String) :=
  if repeats < 0 then
    .error (.invalidArgument "`repeats` value must be non-negative.")
  else
    .ok ["unsqueeze", "expand", "reshape"]

/-- C8: for every negative repeat count, `repeat` fails with the
`InvalidArgument` error before building any graph node (the `Except.error`
result carries no built-op list, so the graph is unchanged). -/
theorem repeat_negative_rejected (inputRank : Nat) (repeats : Int) (dim : Nat)
    (h : repeats < 0) :
    repeatOp inputRank repeats dim =
      Except.error (RepeatErr.invalidArgument "`repeats` value must be non-negative.") := by
  simp [repeatOp, h]

/-- C8 witness: `repeat` with `repeats = -1` is rejected. -/
theorem repeat_negative_rejected_witness :
    repeatOp 1 (-1) 0 =
      Except.error (RepeatErr.invalidArgument "`repeats` value must be non-negative.") :=
  repeat_negative_rejected 1 (-1) 0 (by decide)

/-! ## Variance divisor (reduce.py: `mean_impl`, `var`) -/

/-- The divisor computed by `mean_impl` before `apply_to_divisor`: with
`dim` given, the running product `input_shape[d] * nb_elements_in_mean_dim`
over `d in dim` starting from 1; with `dim = None`, the product of all
extents (`nb_elements[0]`). -/
def meanImplDivisor (shape : List Int) (dim : Option (List Nat)) : Int :=
  match dim with
  | some ds => ds.foldl (fun acc d => shape.getD d 1 * acc) 1
  | none => shape.foldl (· * ·) 1

/-- The `apply_to_divisor` closure passed by `var`:
`lambda x: maximum(x - correction, 0)`. -/
def varApplyToDivisor (correction x : Int) : Int := max (x - correction) 0

/-- The divisor `var` ends up dividing the summed squared deviations by. -/
def varDivisor (shape : List Int) (dim : Option (List Nat)) (correction : Int) : Int :=
  varApplyToDivisor correction (meanImplDivisor shape dim)

/-- C9: `var` uses the divisor `max(0, N - correction)` where `N` is the
element count over the reduced axes, enforced by a max-with-zero elementwise
op; for `N ≤ correction` the divisor saturates at 0 (the computation is total,
so nothing is raised). -/
theorem var_divisor_saturation (shape : List Int) (dim : Option (List Nat))
    (correction : Int) :
    varDivisor shape dim correction =
      max 0 (meanImplDivisor shape dim - correction) ∧
    (meanImplDivisor shape dim ≤ correction →
      varDivisor shape dim correction = 0) := by
  constructor
  · simp [varDivisor, varApplyToDivisor, max_comm]
  · intro h
    simp only [varDivisor, varApplyToDivisor]
    omega

/-- C9 witness: `var(x, correction=1)` on a single-element axis (`N = 1`):
the divisor is 0. -/
theorem var_divisor_saturation_witness :
    meanImplDivisor [1] (some [0]) ≤ 1 ∧ varDivisor [1] (some [0]) 1 = 0 :=
  ⟨by decide, (var_divisor_saturation [1] (some [0]) 1).2 (by decide)⟩

/-! ## `_reduce_impl` rank behavior (reduce.py) -/

/-- Modelled from the spec: `unsqueeze` (frontend/trace/ops/unsqueeze.py, not
under src/) inserts one new axis, so its output rank is the input rank plus
one. -/
def unsqueezeRankStep (r : Int) : Int := r + 1

/-- The output rank of `Reduce.build` (which invokes `infer_rank`). -/
def reduceBuildRank (inputRank : Nat) (dim : Option (List Int)) : Int :=
  (infer_rank ⟨inputRank, dim⟩).2

/-- `_reduce_impl`, embedded at the rank level: build the `Reduce` node, then
if `keepdim` holds, either reshape to `(1,) * input.rank` (rank `input.rank`)
when `dim is None`, or apply one `unsqueeze` per element of `sorted(dim)`.
`reshape` to a `(1,) * input.rank` target has rank `input.rank` (modelled from
the spec, reshape source not under src/). -/
def reduceImplRank (inputRank : Nat) (dim : Option (List Int)) (keepdim : Bool) : Int :=
  let out := reduceBuildRank inputRank dim
  if keepdim then
    match dim with
    | none => (inputRank : Int)
    | some d => (d.insertionSort (· ≤ ·)).foldl (fun r _ => unsqueezeRankStep r) out
  else out

/-- A `dim` argument is valid for an input rank when every axis lies in
`[-rank, rank)` and the normalized axes are pairwise distinct. -/
def validDim (inputRank : Nat) (dim : Option (List Int)) : Prop :=
  match dim with
  | none => True
  | some d =>
      (∀ i ∈ d, -(inputRank : Int) ≤ i ∧ i < inputRank) ∧
      (d.map (normalizeIdx inputRank)).Nodup

instance (inputRank : Nat) (dim : Option (List Int)) :
    Decidable (validDim inputRank dim) := by
  unfold validDim
  cases dim <;> infer_instance

/-- The number of reduced axes: all of them when `dim` is unset, else
`len(dim)`. -/
def numReducedAxes (inputRank : Nat) (dim : Option (List Int)) : Nat :=
  match dim with
  | none => inputRank
  | some d => d.length

lemma foldl_unsqueeze_count (l : List Int) :
    ∀ r : Int, l.foldl (fun r _ => unsqueezeRankStep r) r = r + l.length := by
  induction l with
  | nil => intro r; simp
  | cons x xs ih =>
      intro r
      rw [List.foldl_cons, ih]
      simp only [unsqueezeRankStep, List.length_cons]
      omega

/-- C5: for every valid `dim`, the `sum`/`max`/`prod` reductions built through
`_reduce_impl` produce rank `input.rank` with `keepdim = true`, and rank
`input.rank` minus the number of reduced axes with `keepdim = false`. -/
theorem reduce_impl_rank_keepdim (inputRank : Nat) (dim : Option (List Int))
    (hvalid : validDim inputRank dim) :
    reduceImplRank inputRank dim true = inputRank ∧
    reduceImplRank inputRank dim false =
      (inputRank : Int) - numReducedAxes inputRank dim := by
  cases dim with
  | none =>
      simp [reduceImplRank, reduceBuildRank, infer_rank, numReducedAxes]
  | some d =>
      refine ⟨?_, ?_⟩
      · simp only [reduceImplRank, if_pos]
        rw [foldl_unsqueeze_count]
        simp only [reduceBuildRank, infer_rank, List.length_insertionSort]
        omega
      · simp [reduceImplRank, reduceBuildRank, infer_rank, numReducedAxes]

/-- C5 witness: input rank 2, `dim = [0]` (valid). -/
theorem reduce_impl_rank_keepdim_witness :
    validDim 2 (some [0]) ∧
    reduceImplRank 2 (some [0]) true = 2 ∧
    reduceImplRank 2 (some [0]) false = (2 : Int) - numReducedAxes 2 (some [0]) :=
  ⟨by decide, (reduce_impl_rank_keepdim 2 (some [0]) (by decide)).1,
    (reduce_impl_rank_keepdim 2 (some [0]) (by decide)).2⟩

/-! ## ArgMinMax tie policy (reduce.py: `_arg_min_max_impl`, `ArgMinMax.to_flat_ir`) -/

/-- Modelled from the spec: the comparison semantics of the lowered
`ArgMinMaxOp` live in the flat-IR backend, which is not under src/; the spec
fixes them as a running best over the reduction axis, updated only on a strict
comparison (`better v bv`), seeded from the start of the axis.  `bi`/`bv` are
the running best index and value, `i` the index of the head of `l`. -/
def argRedAux (better : Int → Int → Bool) :
    List Int → Nat → Int → Nat → Nat
  | [], bi, _, _ => bi
  | v :: rest, bi, bv, i =>
      if better v bv then argRedAux better rest i v (i + 1)
      else argRedAux better rest bi bv (i + 1)

/-- Modelled from the spec: the index returned by the arg-reduction along one
axis, seeded with the first element at index 0. -/
def argReduce (better : Int → Int → Bool) : List Int → Nat
  | [] => 0
  | v :: rest => argRedAux better rest 0 v 1

/-- `argmax` along one axis: the running best is replaced only when the
candidate is strictly greater. -/
def argmaxList (l : List Int) : Nat := argReduce (fun a b => decide (b < a)) l

/-- `argmin` along one axis: the running best is replaced only when the
candidate is strictly smaller. -/
def argminList (l : List Int) : Nat := argReduce (fun a b => decide (a < b)) l

lemma argRedAux_of_no_better (better : Int → Int → Bool) :
    ∀ (l : List Int) (bi : Nat) (bv : Int) (i : Nat),
      (∀ x ∈ l, better x bv = false) → argRedAux better l bi bv i = bi := by
  intro l
  induction l with
  | nil => intro bi bv i _; rfl
  | cons v rest ih =>
      intro bi bv i h
      have hv : better v bv = false := h v (List.mem_cons_self v rest)
      simp only [argRedAux, hv, Bool.false_eq_true, if_false]
      exact ih bi bv (i + 1) (fun x hx => h x (List.mem_cons_of_mem v hx))

lemma argRedAux_found (better : Int → Int → Bool)
    (Hirr : ∀ a, better a a = false)
    (Htrans : ∀ a b c, better a b = true → better b c = true → better a c = true)
    (Hskip : ∀ a b c, better a b = false → better c b = true → better c a = true) :
    ∀ (l : List Int) (bv : Int) (i bi : Nat),
      (∃ x ∈ l, better x bv = true) →
      ∃ j, j < l.length ∧ argRedAux better l bi bv i = i + j ∧
        better (l.getD j 0) bv = true ∧
        (∀ k, k < l.length → better (l.getD k 0) (l.getD j 0) = false) ∧
        (∀ k, k < j → better (l.getD j 0) (l.getD k 0) = true) := by
  have hasym : ∀ a b, better a b = true → better b a = false := by
    intro a b hab
    cases hba : better b a
    · rfl
    · have := Htrans a b a hab hba
      rw [Hirr a] at this
      exact absurd this Bool.false_ne_true
  intro l
  induction l with
  | nil => intro bv i bi h; obtain ⟨x, hx, _⟩ := h; exact absurd hx (List.not_mem_nil x)
  | cons v rest ih =>
      intro bv i bi h
      by_cases hv : better v bv = true
      · simp only [argRedAux, hv, if_true]
        by_cases hex : ∃ x ∈ rest, better x v = true
        · obtain ⟨j', hj'len, heq, hbv', hmax', hfirst'⟩ := ih v (i + 1) i hex
          refine ⟨j' + 1, by simpa using hj'len, by omega, ?_, ?_, ?_⟩
          · show better (rest.getD j' 0) bv = true
            exact Htrans _ _ _ hbv' hv
          · intro k hk
            cases k with
            | zero =>
                show better v (rest.getD j' 0) = false
                exact hasym _ _ hbv'
            | succ k' =>
                show better (rest.getD k' 0) (rest.getD j' 0) = false
                exact hmax' k' (by simpa using hk)
          · intro k hk
            cases k with
            | zero =>
                show better (rest.getD j' 0) v = true
                exact hbv'
            | succ k' =>
                show better (rest.getD j' 0) (rest.getD k' 0) = true
                exact hfirst' k' (Nat.lt_of_succ_lt_succ hk)
        · have hall : ∀ x ∈ rest, better x v = false := by
            intro x hx
            cases hb : better x v
            · rfl
            · exact absurd ⟨x, hx, hb⟩ hex
          refine ⟨0, Nat.succ_pos _, ?_, ?_, ?_, ?_⟩
          · rw [argRedAux_of_no_better better rest i v (i + 1) hall]
            omega
          · show better v bv = true
            exact hv
          · intro k hk
            cases k with
            | zero =>
                show better v v = false
                exact Hirr v
            | succ k' =>
                show better (rest.getD k' 0) v = false
                have hk' : k' < rest.length := by simpa using hk
                have hmem : rest.getD k' 0 ∈ rest := by
                  rw [List.getD_eq_getElem rest 0 hk']
                  exact List.getElem_mem hk'
                exact hall _ hmem
          · intro k hk; exact absurd hk (Nat.not_lt_zero k)
      · have hv' : better v bv = false := by
          cases hb : better v bv
          · rfl
          · exact absurd hb hv
        simp only [argRedAux, hv', Bool.false_eq_true, if_false]
        have hex : ∃ x ∈ rest, better x bv = true := by
          obtain ⟨x, hx, hxb⟩ := h
          rcases List.mem_cons.mp hx with rfl | hx'
          · exact absurd hxb hv
          · exact ⟨x, hx', hxb⟩
        obtain ⟨j', hj'len, heq, hbv', hmax', hfirst'⟩ := ih bv (i + 1) bi hex
        have hbeatv : better (rest.getD j' 0) v = true := Hskip v bv _ hv' hbv'
        refine ⟨j' + 1, by simpa using hj'len, by omega, ?_, ?_, ?_⟩
        · show better (rest.getD j' 0) bv = true
          exact hbv'
        · intro k hk
          cases k with
          | zero =>
              show better v (rest.getD j' 0) = false
              exact hasym _ _ hbeatv
          | succ k' =>
              show better (rest.getD k' 0) (rest.getD j' 0) = false
              exact hmax' k' (by simpa using hk)
        · intro k hk
          cases k with
          | zero =>
              show better (rest.getD j' 0) v = true
              exact hbeatv
          | succ k' =>
              show better (rest.getD j' 0) (rest.getD k' 0) = true
              exact hfirst' k' (Nat.lt_of_succ_lt_succ hk)

lemma argReduce_first (better : Int → Int → Bool)
    (Hirr : ∀ a, better a a = false)
    (Htrans : ∀ a b c, better a b = true → better b c = true → better a c = true)
    (Hskip : ∀ a b c, better a b = false → better c b = true → better c a = true)
    (l : List Int) (h : l ≠ []) :
    argReduce better l < l.length ∧
    (∀ k, k < l.length → better (l.getD k 0) (l.getD (argReduce better l) 0) = false) ∧
    (∀ k, k < argReduce better l → better (l.getD (argReduce better l) 0) (l.getD k 0) = true) := by
  have hasym : ∀ a b, better a b = true → better b a = false := by
    intro a b hab
    cases hba : better b a
    · rfl
    · have := Htrans a b a hab hba
      rw [Hirr a] at this
      exact absurd this Bool.false_ne_true
  cases l with
  | nil => exact absurd rfl h
  | cons v rest =>
      by_cases hex : ∃ x ∈ rest, better x v = true
      · obtain ⟨j', hj'len, heq, hbv', hmax', hfirst'⟩ :=
          argRedAux_found better Hirr Htrans Hskip rest v 1 0 hex
        have hr : argReduce better (v :: rest) = j' + 1 := by
          simp only [argReduce, heq]; omega
        rw [hr]
        refine ⟨by simpa using hj'len, ?_, ?_⟩
        · intro k hk
          cases k with
          | zero =>
              show better v (rest.getD j' 0) = false
              exact hasym _ _ hbv'
          | succ k' =>
              show better (rest.getD k' 0) (rest.getD j' 0) = false
              exact hmax' k' (by simpa using hk)
        · intro k hk
          cases k with
          | zero =>
              show better (rest.getD j' 0) v = true
              exact hbv'
          | succ k' =>
              show better (rest.getD j' 0) (rest.getD k' 0) = true
              exact hfirst' k' (Nat.lt_of_succ_lt_succ hk)
      · have hall : ∀ x ∈ rest, better x v = false := by
          intro x hx
          cases hb : better x v
          · rfl
          · exact absurd ⟨x, hx, hb⟩ hex
        have hr : argReduce better (v :: rest) = 0 := by
          simp only [argReduce]
          exact argRedAux_of_no_better better rest 0 v 1 hall
        rw [hr]
        refine ⟨Nat.succ_pos _, ?_, ?_⟩
        · intro k hk
          cases k with
          | zero =>
              show better v v = false
              exact Hirr v
          | succ k' =>
              show better (rest.getD k' 0) v = false
              have hk' : k' < rest.length := by simpa using hk
              have hmem : rest.getD k' 0 ∈ rest := by
                rw [List.getD_eq_getElem rest 0 hk']
                exact List.getElem_mem hk'
              exact hall _ hmem
        · intro k hk; exact absurd hk (Nat.not_lt_zero k)

/-- C6: `argmax` (resp. `argmin`) returns an in-range index whose element no
other element strictly exceeds (resp. undercuts), and every position before
the returned index holds a strictly smaller (resp. larger) value — i.e. the
first occurrence of the extreme value along the axis is returned. -/
theorem argminmax_first_occurrence (l : List Int) (h : l ≠ []) :
    (argmaxList l < l.length ∧
      (∀ k, k < l.length → l.getD k 0 ≤ l.getD (argmaxList l) 0) ∧
      (∀ k, k < argmaxList l → l.getD k 0 < l.getD (argmaxList l) 0)) ∧
    (argminList l < l.length ∧
      (∀ k, k < l.length → l.getD (argminList l) 0 ≤ l.getD k 0) ∧
      (∀ k, k < argminList l → l.getD (argminList l) 0 < l.getD k 0)) := by
  simp only [argmaxList, argminList]
  constructor
  · obtain ⟨h1, h2, h3⟩ := argReduce_first (fun a b => decide (b < a))
      (by intro a; simp)
      (by intro a b c hab hbc; simp only [decide_eq_true_eq] at *; omega)
      (by
        intro a b c hab hcb
        simp only [decide_eq_false_iff_not, decide_eq_true_eq] at *
        omega)
      l h
    refine ⟨h1, ?_, ?_⟩
    · intro k hk
      have := h2 k hk
      simp only [decide_eq_false_iff_not] at this
      omega
    · intro k hk
      have := h3 k hk
      simp only [decide_eq_true_eq] at this
      omega
  · obtain ⟨h1, h2, h3⟩ := argReduce_first (fun a b => decide (a < b))
      (by intro a; simp)
      (by intro a b c hab hbc; simp only [decide_eq_true_eq] at *; omega)
      (by
        intro a b c hab hcb
        simp only [decide_eq_false_iff_not, decide_eq_true_eq] at *
        omega)
      l h
    refine ⟨h1, ?_, ?_⟩
    · intro k hk
      have := h2 k hk
      simp only [decide_eq_false_iff_not] at this
      omega
    · intro k hk
      have := h3 k hk
      simp only [decide_eq_true_eq] at this
      omega

/-- C6 witness: on `[1, 1, 0]` the first maximum is returned — index 0, not
index 1 despite the tie. -/
theorem argminmax_first_occurrence_witness :
    argmaxList [1, 1, 0] = 0 ∧
    (∀ k, k < ([1, 1, 0] : List Int).length →
      ([1, 1, 0] : List Int).getD k 0 ≤
        ([1, 1, 0] : List Int).getD (argmaxList [1, 1, 0]) 0) :=
  ⟨by decide, (argminmax_first_occurrence [1, 1, 0] (by simp)).1.2.1⟩

/-! ## Boolean conversion (frontend/tensor.py, `Tensor.__bool__`) -/

/-- The nested-list form `Tensor.tolist()` returns: a scalar element or a
list of nested data, one nesting level per rank. -/
inductive PyData where
  | scalar (v : Int)
  | list (xs : List PyData)

/-- Whether nested data conforms to a shape: a scalar under the empty shape,
and under shape `d :: rest` a list of exactly `d` children each conforming to
`rest`. -/
def conforms : List Nat → PyData → Bool
  | [], .scalar _ => true
  | [], .list _ => false
  | _ :: _, .scalar _ => false
  | d :: rest, .list xs => xs.length == d && xs.all (fun x => conforms rest x)

/-- The `for _ in range(self.rank): data = data[0]` loop of `__bool__`:
take the head `rank` times (`none` models the `IndexError`/`TypeError`
Python would raise on malformed data). -/
def unwrapHead : Nat → PyData → Option PyData
  | 0, d => some d
  | n + 1, .list (x :: _) => unwrapHead n x
  | _ + 1, .list [] => none
  | _ + 1, .scalar _ => none

/-- Python truthiness of the unwrapped item (`bool(data)`). -/
def truthy : PyData → Bool
  | .scalar v => v != 0
  | .list xs => !xs.isEmpty

/-- `Tensor.__bool__`, embedded from the source: if any dimension of the
producer's shape differs from 1, raise the ambiguity error; otherwise unwrap
one nesting level per rank and return the truth value of the remaining item. -/
def tensorBool (shape : List Nat) (rank : Nat) (data : PyData) :
    Except String Bool :=
  if shape.any (fun d => d != 1) then
    .error "Boolean value of a Tensor with more than one value is ambiguous"
  else
    match unwrapHead rank data with
    | some d => .ok (truthy d)
    | none => .error "index error"

lemma conforms_ones_unwrap (shape : List Nat) :
    ∀ data : PyData, (∀ d ∈ shape, d = 1) → conforms shape data = true →
      ∃ v : Int, unwrapHead shape.length data = some (PyData.scalar v) := by
  induction shape with
  | nil =>
      intro data _ hconf
      cases data with
      | scalar v => exact ⟨v, rfl⟩
      | list xs => simp [conforms] at hconf
  | cons d rest ih =>
      intro data h1 hconf
      cases data with
      | scalar v => simp [conforms] at hconf
      | list xs =>
          simp only [conforms, Bool.and_eq_true, beq_iff_eq, List.all_eq_true] at hconf
          obtain ⟨hlen, hall⟩ := hconf
          have hd1 : d = 1 := h1 d (List.mem_cons_self d rest)
          cases xs with
          | nil => simp at hlen; omega
          | cons x xt =>
              have hx := hall x (List.mem_cons_self x xt)
              have hrest : ∀ e ∈ rest, e = 1 := fun e he => h1 e (List.mem_cons_of_mem d he)
              obtain ⟨v, hv⟩ := ih x hrest hx
              exact ⟨v, hv⟩

/-- C10: converting a tensor to a Python boolean fails with the ambiguity
error whenever the shape contains a dimension other than 1, and for every
single-element tensor (all dimensions 1, data conforming to the shape, rank =
len(shape)) it unwraps one nesting level per rank and returns the truth value
of the single element. -/
theorem tensor_bool_spec (shape : List Nat) (data : PyData) :
    ((∃ d ∈ shape, d ≠ 1) →
      tensorBool shape shape.length data =
        .error "Boolean value of a Tensor with more than one value is ambiguous") ∧
    ((∀ d ∈ shape, d = 1) → conforms shape data = true →
      ∃ v : Int, unwrapHead shape.length data = some (.scalar v) ∧
        tensorBool shape shape.length data = .ok (v != 0)) := by
  constructor
  · intro hd
    obtain ⟨d, hdm, hd1⟩ := hd
    have hany : shape.any (fun d => d != 1) = true := by
      rw [List.any_eq_true]
      exact ⟨d, hdm, by simpa using hd1⟩
    simp [tensorBool, hany]
  · intro h1 hconf
    obtain ⟨v, hv⟩ := conforms_ones_unwrap shape data h1 hconf
    refine ⟨v, hv, ?_⟩
    have hany : shape.any (fun d => d != 1) = false := by
      rw [List.any_eq_false]
      intro d hd
      simpa using h1 d hd
    simp [tensorBool, hany, hv, truthy]

/-- C10 witness: shape `[2]` is rejected as ambiguous; shape `[1, 1]` with the
single element 5 unwraps two levels and yields the truth value of 5. -/
theorem tensor_bool_spec_witness :
    tensorBool [2] ([2] : List Nat).length (PyData.list [.scalar 1, .scalar 2]) =
      .error "Boolean value of a Tensor with more than one value is ambiguous" ∧
    (∃ v : Int,
      unwrapHead ([1, 1] : List Nat).length (PyData.list [.list [.scalar 5]]) =
        some (.scalar v) ∧
      tensorBool [1, 1] ([1, 1] : List Nat).length (PyData.list [.list [.scalar 5]]) =
        .ok (v != 0)) :=
  ⟨(tensor_bool_spec [2] (PyData.list [.scalar 1, .scalar 2])).1 ⟨2, by decide, by decide⟩,
    (tensor_bool_spec [1, 1] (PyData.list [.list [.scalar 5]])).2
      (by decide) (by rfl)⟩
